import Mathlib

/-!
Shallow embedding of `src/usagi-shopping-list.c`, an interactive shopping-list
manager.  Strings from the C code are modelled as `List Char`; the shopping
list (a dense growable array of `count` strings) is modelled as `List Item`.
Capacity management (`create_list`, `ensure_capacity`) only affects allocation
and is invisible at this level; allocation failure (the only fatal error) is
out of scope of the embedded state.  Wherever a C function prints, the model
returns the printed lines alongside its result; wherever it touches the file
system, the model takes the file content (an `Option`, `none` meaning the
`fopen` failed) as an argument and returns written content explicitly.
-/

namespace Usagi

/-- A stored item: the characters of a C string (no NUL terminator). -/
abbrev Item := List Char

/-- C `isspace` on an `unsigned char` in the default locale: space, `\t`,
`\n`, vertical tab, form feed, `\r`. -/
def isSpaceC (c : Char) : Bool :=
  c = ' ' || c = '\t' || c = '\n' || c = '\x0b' || c = '\x0c' || c = '\r'

/-- The loop condition of `rtrim` (line 20): trailing `\n`, `\r`, or
`isspace` characters are removed. -/
def rtrimDrop (c : Char) : Bool :=
  c = '\n' || c = '\r' || isSpaceC c

/-- `rtrim` (lines 18-23): repeatedly erase the last character while it
satisfies `rtrimDrop`. -/
def rtrim (s : List Char) : List Char :=
  (s.reverse.dropWhile rtrimDrop).reverse

/-- `add_item` (lines 67-76): a NULL or empty string is ignored, otherwise a
copy of the item is appended at position `count` and `count` is incremented.
(`ensure_capacity` and the `strdup` allocation are invisible here.) -/
def add_item (l : List Item) (item : Item) : List Item :=
  if item = [] then l else l ++ [item]

/-- `remove_item` (lines 89-99): an out-of-range index prints
`Invalid index` and leaves the list alone; otherwise the element at `index`
is freed, the later elements are shifted down one slot, and `count` is
decremented.  Returns the new list and the printed lines. -/
def remove_item (l : List Item) (index : Nat) : List Item × List String :=
  if l.length ≤ index then (l, ["Invalid index"])
  else (l.take index ++ l.drop (index + 1), [])

/-- The `/clear` loop body (line 161): `while (list->count) remove_item(list, 0);`. -/
def clear_loop : List Item → List Item
  | [] => []
  | x :: xs => clear_loop (remove_item (x :: xs) 0).1
termination_by l => l.length
decreasing_by
  simp [remove_item]

/-- The write loop of `save_to_file` (lines 107-109): each item is printed
with `fprintf(f, "%s\n", ...)`, in list order.  The result is the full byte
content written to the file. -/
def save_lines : List Item → List Char
  | [] => []
  | it :: rest => it ++ '\n' :: save_lines rest

/-- One `fgets(buf, cap + 1, f)` call on remaining stream `cs`: read up to
`cap` characters, stopping after a newline.  The returned chunk is exactly
the prefix of `cs` that the call consumes. -/
def fgets_take : Nat → List Char → List Char
  | 0, _ => []
  | _ + 1, [] => []
  | cap + 1, c :: cs => if c = '\n' then [c] else c :: fgets_take cap cs

/-- The recursion of `fgets_split` below, made structural on a fuel counter
so that it evaluates by reduction; every call consumes at least one
character, so any fuel at least the stream length yields the fixpoint. -/
def fgets_split_fuel : Nat → List Char → List (List Char)
  | 0, _ => []
  | _ + 1, [] => []
  | fuel + 1, c :: cs =>
      fgets_take 1023 (c :: cs) ::
        fgets_split_fuel fuel ((c :: cs).drop (fgets_take 1023 (c :: cs)).length)

/-- Successive `fgets(buf, BUFFER_SIZE, f)` calls (`BUFFER_SIZE = 1024`,
line 15, so at most 1023 characters per call) until the stream is exhausted:
the list of chunks a read loop such as lines 121-125 or 189 sees. -/
def fgets_split (cs : List Char) : List (List Char) :=
  fgets_split_fuel cs.length cs

/-- The read loop of `load_from_file` (lines 121-125): each chunk is
`rtrim`med, empty results are skipped, the rest are fed to `add_item`. -/
def load_lines (l : List Item) : List (List Char) → List Item
  | [] => l
  | chunk :: rest =>
      if rtrim chunk = [] then load_lines l rest
      else load_lines (add_item l (rtrim chunk)) rest

/-- `load_from_file` (lines 114-128) given the content of the opened file
(`none` = `fopen` failed).  Returns the new list and the printed lines. -/
def load_from_file (l : List Item) (file : Option (List Char)) (fname : String) :
    List Item × List String :=
  match file with
  | none => (l, ["Failed to open file"])
  | some content =>
      let l2 := load_lines l (fgets_split content)
      (l2, ["Loaded items from '" ++ fname ++ "' (now " ++ toString l2.length ++ " items)"])

/-- `save_to_file` (lines 101-112) with `writeOk = false` meaning the
`fopen(filename, "w")` failed.  Returns the content written (if any) and the
printed lines. -/
def save_to_file (l : List Item) (writeOk : Bool) (fname : String) :
    Option (List Char) × List String :=
  if writeOk then
    (some (save_lines l),
     ["Saved " ++ toString l.length ++ " items to '" ++ fname ++ "'"])
  else (none, ["Failed to open file"])

/-- `print_list` (lines 78-87): the lines printed for the current list. -/
def print_list (l : List Item) : List String :=
  if l.length = 0 then ["(shopping list is empty)"]
  else "Your shopping list:" ::
    l.enum.map (fun p => toString (p.1 + 1) ++ ". " ++ String.mk p.2)

/-- The delimiter set `" \t"` passed to every `strtok` call in
`try_handle_command` (lines 138, 144, 153, 157). -/
def isDelim (c : Char) : Bool :=
  c = ' ' || c = '\t'

/-- Accumulator version of `tokenize`: `acc` holds the (reversed) token
being read. -/
def tokenizeAux : List Char → List Char → List (List Char)
  | [], acc => if acc = [] then [] else [acc.reverse]
  | c :: cs, acc =>
      if isDelim c then
        if acc = [] then tokenizeAux cs []
        else acc.reverse :: tokenizeAux cs []
      else tokenizeAux cs (c :: acc)

/-- The sequence of tokens successive `strtok(_, " \t")` calls yield on a
string: maximal nonempty runs of non-delimiter characters. -/
def tokenize (s : List Char) : List (List Char) :=
  tokenizeAux s []

/-- ASCII decimal digit test, as `strtol` in base 10 uses it. -/
def isDigitC (c : Char) : Bool :=
  '0' ≤ c && c ≤ '9'

/-- The digit-accumulation loop of `strtol`: consume digits as far as
possible, starting from accumulator `acc`. -/
def strtolNat : List Char → Nat → Nat
  | [], acc => acc
  | c :: cs, acc =>
      if isDigitC c then strtolNat cs (acc * 10 + (c.toNat - '0'.toNat)) else acc

/-- `strtol(arg, NULL, 10)` (line 148) as a permissive leading-integer
parse: skip leading `isspace` characters, accept one optional sign, consume
digits as far as possible, and yield 0 when no digit follows.  (The
`LONG_MAX`/`LONG_MIN` overflow clamp is not modelled; the arguments the
program can pass stay far below it except for pathological 1000-digit
tokens, which the claims do not touch.) -/
def strtol (s : List Char) : Int :=
  match s.dropWhile isSpaceC with
  | '-' :: rest => -(strtolNat rest 0 : Int)
  | '+' :: rest => (strtolNat rest 0 : Int)
  | s1 => (strtolNat s1 0 : Int)

/-- What one `try_handle_command` call (lines 132-178) produces: whether the
input was treated as a command (the C return value), the list afterwards,
the lines printed, the file content written by a successful `/save`, and
whether `/quit`'s `exit(EXIT_SUCCESS)` fired. -/
structure CmdResult where
  handled : Bool
  list : List Item
  msgs : List String
  fileOut : Option (List Char)
  quit : Bool
deriving Repr, DecidableEq

/-- The fixed `/help` text (lines 164-170). -/
def help_lines : List String :=
  ["Commands:",
   "  /view            - show list",
   "  /remove INDEX    - remove item by number",
   "  /save FILE       - save list to file",
   "  /load FILE       - load items from file (appends)",
   "  /clear           - remove all items",
   "  /quit            - quit immediately"]

/-- `try_handle_command` (lines 132-178).  `readFile` is what
`fopen(arg, "r")` would yield for a `/load` (`none` = failure); `writeOk`
says whether `fopen(arg, "w")` for a `/save` succeeds.  The input is copied
into a 1024-byte buffer by `strncpy` (lines 136-137), hence the
`List.take 1023`; `strtok` then splits it into tokens.  A first token can
only be absent when the whole input is delimiters, which cannot happen when
the input starts with `/`; the branch is kept as in the source. -/
def try_handle_command (readFile : Option (List Char)) (writeOk : Bool)
    (l : List Item) (input : List Char) : CmdResult :=
  if input.head? ≠ some '/' then ⟨false, l, [], none, false⟩
  else
    let toks := tokenize (input.take 1023)
    match toks.head? with
    | none => ⟨true, l, [], none, false⟩
    | some cmd =>
      if cmd = "/view".data then ⟨true, l, print_list l, none, false⟩
      else if cmd = "/remove".data then
        match toks[1]? with
        | none => ⟨true, l, ["Usage: /remove INDEX"], none, false⟩
        | some arg =>
            let idx := strtol arg
            if idx ≤ 0 then ⟨true, l, ["Specify a positive index"], none, false⟩
            else
              let r := remove_item l (idx.toNat - 1)
              ⟨true, r.1, r.2, none, false⟩
      else if cmd = "/save".data then
        match toks[1]? with
        | none => ⟨true, l, ["Usage: /save filename"], none, false⟩
        | some arg =>
            let r := save_to_file l writeOk (String.mk arg)
            ⟨true, l, r.2, r.1, false⟩
      else if cmd = "/load".data then
        match toks[1]? with
        | none => ⟨true, l, ["Usage: /load filename"], none, false⟩
        | some arg =>
            let r := load_from_file l readFile (String.mk arg)
            ⟨true, r.1, r.2, none, false⟩
      else if cmd = "/clear".data then
        ⟨true, clear_loop l, ["Cleared the list"], none, false⟩
      else if cmd = "/help".data then
        ⟨true, l, help_lines, none, false⟩
      else if cmd = "/quit".data then
        ⟨true, l, ["Goodbye!"], none, true⟩
      else
        ⟨true, l, ["Unknown command. Type /help for commands."], none, false⟩

/-- The two states of the interaction loop of `main` (lines 187-220): the
outer "What do you want to add?" loop and the inner "Anything else? (y/n)"
confirmation loop. -/
inductive LoopState where
  | awaitingItem
  | awaitingConfirmation
deriving Repr, DecidableEq

/-- The read-eval loop of `main` (lines 187-220) on an explicit queue of
`fgets` chunks.  Returns the final list together with `true` when the run
reached the `done:` label (end of input, or an `n` answer — the path that
prints the final listing and returns 0), and `false` when a `/quit`
terminated the process directly. -/
def interact (readFile : Option (List Char)) (writeOk : Bool) :
    List Item → LoopState → List (List Char) → List Item × Bool
  | l, _, [] => (l, true)
  | l, .awaitingItem, line :: rest =>
      let t := rtrim line
      if t = [] then interact readFile writeOk l .awaitingItem rest
      else
        let r := try_handle_command readFile writeOk l t
        if r.handled then
          if r.quit then (r.list, false)
          else interact readFile writeOk r.list .awaitingItem rest
        else interact readFile writeOk (add_item l t) .awaitingConfirmation rest
  | l, .awaitingConfirmation, line :: rest =>
      let t := rtrim line
      if t = [] then interact readFile writeOk l .awaitingConfirmation rest
      else if t.head? = some 'y' ∨ t.head? = some 'Y' then
        interact readFile writeOk l .awaitingItem rest
      else if t.head? = some 'n' ∨ t.head? = some 'N' then (l, true)
      else if t.head? = some '/' then
        let r := try_handle_command readFile writeOk l t
        if r.handled then
          if r.quit then (r.list, false)
          else interact readFile writeOk r.list .awaitingConfirmation rest
        else interact readFile writeOk l .awaitingConfirmation rest
      else interact readFile writeOk l .awaitingConfirmation rest

/-- `main` (lines 180-227): start with the empty list in the outer state and
feed it the chunks `fgets(buf, sizeof(buf), stdin)` carves out of the whole
standard-input stream. -/
def main_run (readFile : Option (List Char)) (writeOk : Bool)
    (stdin : List Char) : List Item × Bool :=
  interact readFile writeOk [] .awaitingItem (fgets_split stdin)

/-- Adding one line of input through the program's add path: every caller of
`add_item` (`main` lines 190/199, `load_from_file` lines 122-124) first
`rtrim`s the line, and empty results are never added. -/
def add_input (l : List Item) (s : List Char) : List Item :=
  add_item l (rtrim s)

/-- The shape every item the program ever stores has: it is a nonempty
`rtrim`-fixed chunk of at most 1023 characters read by `fgets`, so it
contains no newline.  These are the side conditions under which the
save/load round trip reproduces a list exactly. -/
def storable (it : Item) : Prop :=
  it ≠ [] ∧ rtrim it = it ∧ '\n' ∉ it ∧ it.length ≤ 1023

instance (it : Item) : Decidable (storable it) := by
  unfold storable
  infer_instance

/-- "The argument has no leading digits": after `strtol` skips leading
whitespace and an optional sign, the next character is not a decimal
digit (or there is none), so the parse fails totally. -/
def noLeadingDigit (s : List Char) : Bool :=
  match s.dropWhile isSpaceC with
  | [] => true
  | c :: rest =>
      if c = '-' || c = '+' then
        match rest with
        | [] => true
        | d :: _ => !isDigitC d
      else !isDigitC c

/-! ## Helper lemmas -/

theorem dropWhile_eq_self_of_not {p : Char → Bool} {s : List Char}
    (h : ∀ c ∈ s, p c = false) : s.dropWhile p = s := by
  cases s with
  | nil => rfl
  | cons a t =>
      rw [List.dropWhile_cons_of_neg]
      simp [h a (by simp)]

theorem rtrim_eq_self {s : List Char} (h : ∀ c ∈ s, rtrimDrop c = false) :
    rtrim s = s := by
  unfold rtrim
  rw [dropWhile_eq_self_of_not (fun c hc => h c (List.mem_reverse.mp hc))]
  exact s.reverse_reverse

theorem rtrim_eq_nil {s : List Char} (h : ∀ c ∈ s, rtrimDrop c = true) :
    rtrim s = [] := by
  unfold rtrim
  rw [List.dropWhile_eq_nil_iff.mpr (fun c hc => h c (List.mem_reverse.mp hc))]
  rfl

theorem rtrim_append_trim (s : List Char) (c : Char) (h : rtrimDrop c = true) :
    rtrim (s ++ [c]) = rtrim s := by
  unfold rtrim
  rw [List.reverse_append]
  simp only [List.reverse_cons, List.reverse_nil, List.nil_append, List.singleton_append]
  rw [List.dropWhile_cons_of_pos h]

theorem dropWhile_head_false {p : Char → Bool} {a : Char} {t : List Char}
    (h : (a :: t).dropWhile p = a :: t) : p a = false := by
  by_contra hp
  have hp' : p a = true := by revert hp; cases p a <;> simp
  rw [List.dropWhile_cons_of_pos hp'] at h
  have h1 := (List.dropWhile_sublist (l := t) p).length_le
  have h2 := congrArg List.length h
  simp at h2
  omega

theorem rtrim_append_eq_self {x arg : List Char} (h1 : arg ≠ [])
    (h2 : rtrim arg = arg) : rtrim (x ++ arg) = x ++ arg := by
  have hrev : arg.reverse.dropWhile rtrimDrop = arg.reverse := by
    have h3 := congrArg List.reverse h2
    unfold rtrim at h3
    simpa using h3
  obtain ⟨a, t, hat⟩ := List.exists_cons_of_ne_nil
    (show arg.reverse ≠ [] by simpa using h1)
  rw [hat] at hrev
  have hpa : rtrimDrop a = false := dropWhile_head_false hrev
  unfold rtrim
  rw [List.reverse_append, hat, List.cons_append,
    List.dropWhile_cons_of_neg (by simp [hpa]), ←List.cons_append, ←hat,
    ←List.reverse_append]
  exact (x ++ arg).reverse_reverse

theorem fgets_take_len_le : ∀ (n : Nat) (cs : List Char),
    (fgets_take n cs).length ≤ n
  | 0, _ => by simp [fgets_take]
  | _ + 1, [] => by simp [fgets_take]
  | n + 1, c :: cs => by
      simp only [fgets_take]
      split
      · simp
      · simpa using fgets_take_len_le n cs

theorem fgets_take_append_drop : ∀ (n : Nat) (cs : List Char),
    fgets_take n cs ++ cs.drop (fgets_take n cs).length = cs
  | 0, cs => by simp [fgets_take]
  | _ + 1, [] => by simp [fgets_take]
  | n + 1, c :: cs => by
      simp only [fgets_take]
      split
      · simp
      · simpa using fgets_take_append_drop n cs

theorem fgets_take_pos (n : Nat) (c : Char) (cs : List Char) (h : 0 < n) :
    0 < (fgets_take n (c :: cs)).length := by
  match n, h with
  | n + 1, _ =>
      simp only [fgets_take]
      split <;> simp

theorem fgets_take_eq_take : ∀ (n : Nat) (cs : List Char),
    '\n' ∉ cs.take n → fgets_take n cs = cs.take n
  | 0, cs, _ => by simp [fgets_take]
  | _ + 1, [], _ => by simp [fgets_take]
  | n + 1, c :: cs, h => by
      simp only [List.take_succ_cons] at h
      simp only [fgets_take, List.take_succ_cons]
      rw [if_neg (by intro hc; exact h (by simp [hc]))]
      rw [fgets_take_eq_take n cs (fun hc => h (by simp [hc]))]

theorem fgets_take_newline : ∀ (n : Nat) (it rest : List Char),
    '\n' ∉ it → it.length < n →
    fgets_take n (it ++ '\n' :: rest) = it ++ ['\n']
  | 0, _, _, _, h2 => by omega
  | n + 1, [], rest, _, _ => by
      simp only [List.nil_append]
      simp [fgets_take]
  | n + 1, c :: it, rest, h1, h2 => by
      simp only [List.cons_append]
      simp only [fgets_take]
      rw [if_neg (by intro hc; exact h1 (by simp [hc]))]
      rw [fgets_take_newline n it rest (fun hc => h1 (by simp [hc]))
        (by simpa using h2)]

theorem fgets_split_fuel_congr : ∀ (f1 f2 : Nat) (cs : List Char),
    cs.length ≤ f1 → cs.length ≤ f2 →
    fgets_split_fuel f1 cs = fgets_split_fuel f2 cs
  | 0, f2, cs, h1, _ => by
      have : cs = [] := by
        cases cs
        · rfl
        · simp at h1
      subst this
      cases f2 <;> rfl
  | _ + 1, 0, cs, _, h2 => by
      have : cs = [] := by
        cases cs
        · rfl
        · simp at h2
      subst this
      rfl
  | f1 + 1, f2 + 1, [], _, _ => rfl
  | f1 + 1, f2 + 1, c :: cs, h1, h2 => by
      simp only [fgets_split_fuel]
      congr 1
      have hpos : 0 < (fgets_take 1023 (c :: cs)).length :=
        fgets_take_pos 1023 c cs (by omega)
      apply fgets_split_fuel_congr
      · simp only [List.length_drop, List.length_cons] at *
        omega
      · simp only [List.length_drop, List.length_cons] at *
        omega

theorem fgets_split_cons (c : Char) (cs : List Char) :
    fgets_split (c :: cs) = fgets_take 1023 (c :: cs) ::
      fgets_split ((c :: cs).drop (fgets_take 1023 (c :: cs)).length) := by
  unfold fgets_split
  simp only [List.length_cons, fgets_split_fuel]
  congr 1
  have hpos : 0 < (fgets_take 1023 (c :: cs)).length :=
    fgets_take_pos 1023 c cs (by omega)
  apply fgets_split_fuel_congr
  · simp only [List.length_drop, List.length_cons]
    omega
  · exact Nat.le_refl _

theorem fgets_split_ne_nil (cs : List Char) (h : cs ≠ []) :
    fgets_split cs = fgets_take 1023 cs ::
      fgets_split (cs.drop (fgets_take 1023 cs).length) := by
  cases cs with
  | nil => exact absurd rfl h
  | cons c cs' => exact fgets_split_cons c cs'

theorem fgets_split_flatten : ∀ cs : List Char, (fgets_split cs).flatten = cs := by
  have key : ∀ (fuel : Nat) (cs : List Char), cs.length ≤ fuel →
      (fgets_split_fuel fuel cs).flatten = cs := by
    intro fuel
    induction fuel with
    | zero =>
        intro cs h
        have : cs = [] := by
          cases cs
          · rfl
          · simp at h
        subst this
        rfl
    | succ f ih =>
        intro cs h
        cases cs with
        | nil => rfl
        | cons c cs' =>
            simp only [fgets_split_fuel, List.flatten_cons]
            have hpos : 0 < (fgets_take 1023 (c :: cs')).length :=
              fgets_take_pos 1023 c cs' (by omega)
            have hdrop := ih ((c :: cs').drop (fgets_take 1023 (c :: cs')).length)
              (by
                simp only [List.length_drop, List.length_cons] at *
                omega)
            rw [hdrop]
            exact fgets_take_append_drop 1023 (c :: cs')
  intro cs
  exact key cs.length cs (Nat.le_refl _)

theorem fgets_split_chunk_le : ∀ (cs : List Char) (chunk : List Char),
    chunk ∈ fgets_split cs → chunk.length ≤ 1023 := by
  have key : ∀ (fuel : Nat) (cs : List Char) (chunk : List Char),
      chunk ∈ fgets_split_fuel fuel cs → chunk.length ≤ 1023 := by
    intro fuel
    induction fuel with
    | zero =>
        intro cs chunk h
        simp [fgets_split_fuel] at h
    | succ f ih =>
        intro cs chunk h
        cases cs with
        | nil => simp [fgets_split_fuel] at h
        | cons c cs' =>
            simp only [fgets_split_fuel, List.mem_cons] at h
            rcases h with h | h
            · subst h
              exact fgets_take_len_le 1023 (c :: cs')
            · exact ih _ _ h
  intro cs chunk h
  exact key cs.length cs chunk h

theorem clear_loop_eq_nil : ∀ l : List Item, clear_loop l = []
  | [] => by rw [clear_loop]
  | x :: xs => by
      rw [clear_loop]
      have h : (remove_item (x :: xs) 0).1 = xs := by simp [remove_item]
      rw [h]
      exact clear_loop_eq_nil xs

theorem add_item_inv {l : List Item} (h : ∀ it ∈ l, it ≠ []) (x : Item) :
    ∀ it ∈ add_item l x, it ≠ [] := by
  intro it hit
  unfold add_item at hit
  split at hit
  · exact h it hit
  · rename_i hx
    rcases List.mem_append.mp hit with h1 | h1
    · exact h it h1
    · simp only [List.mem_singleton] at h1
      subst h1
      exact hx

theorem remove_item_inv {l : List Item} (h : ∀ it ∈ l, it ≠ []) (i : Nat) :
    ∀ it ∈ (remove_item l i).1, it ≠ [] := by
  intro it hit
  unfold remove_item at hit
  split at hit
  · exact h it hit
  · simp only at hit
    rcases List.mem_append.mp hit with h1 | h1
    · exact h it ((List.take_sublist _ _).subset h1)
    · exact h it ((List.drop_sublist _ _).subset h1)

theorem load_lines_inv : ∀ (chunks : List (List Char)) (l : List Item),
    (∀ it ∈ l, it ≠ []) → ∀ it ∈ load_lines l chunks, it ≠ []
  | [], l, h => by simpa [load_lines] using h
  | chunk :: rest, l, h => by
      simp only [load_lines]
      split
      · exact load_lines_inv rest l h
      · exact load_lines_inv rest _ (add_item_inv h _)

theorem load_save_aux : ∀ (l m : List Item), (∀ it ∈ l, storable it) →
    load_lines m (fgets_split (save_lines l)) = m ++ l
  | [], m, _ => by simp [save_lines, fgets_split, fgets_split_fuel, load_lines]
  | it :: l', m, h => by
      obtain ⟨hne, hfix, hnl, hlen⟩ := h it (by simp)
      have hrest : ∀ x ∈ l', storable x := fun x hx => h x (by simp [hx])
      simp only [save_lines]
      by_cases hc : it.length ≤ 1022
      · have hsplit : fgets_split (it ++ '\n' :: save_lines l') =
            (it ++ ['\n']) :: fgets_split (save_lines l') := by
          rw [fgets_split_ne_nil _ (by simp)]
          rw [fgets_take_newline 1023 it _ hnl (by omega)]
          congr 1
          have hre : it ++ '\n' :: save_lines l' = (it ++ ['\n']) ++ save_lines l' := by
            simp
          rw [hre, List.drop_left]
        rw [hsplit]
        simp only [load_lines]
        rw [rtrim_append_trim it '\n' (by decide), hfix, if_neg hne]
        rw [show add_item m it = m ++ [it] from by simp [add_item, hne]]
        rw [load_save_aux l' (m ++ [it]) hrest]
        simp
      · have hlen' : it.length = 1023 := by omega
        have htake : fgets_take 1023 (it ++ '\n' :: save_lines l') = it := by
          have h1 : (it ++ '\n' :: save_lines l').take 1023 = it := by
            rw [← hlen']
            exact List.take_left it _
          rw [fgets_take_eq_take _ _ (by rw [h1]; exact hnl), h1]
        have hsplit1 : fgets_split (it ++ '\n' :: save_lines l') =
            it :: fgets_split ('\n' :: save_lines l') := by
          rw [fgets_split_ne_nil _ (by simp), htake, List.drop_left]
        have hsplit2 : fgets_split ('\n' :: save_lines l') =
            ['\n'] :: fgets_split (save_lines l') := by
          rw [fgets_split_cons]
          have h2 : fgets_take 1023 ('\n' :: save_lines l') = ['\n'] := by
            show fgets_take (1022 + 1) ('\n' :: save_lines l') = ['\n']
            simp [fgets_take]
          rw [h2]
          simp
        rw [hsplit1, hsplit2]
        simp only [load_lines]
        rw [hfix, if_neg hne]
        rw [show rtrim ['\n'] = [] from by decide]
        simp only [if_pos rfl]
        rw [show add_item m it = m ++ [it] from by simp [add_item, hne]]
        rw [load_save_aux l' (m ++ [it]) hrest]
        simp

theorem tokenizeAux_all_nondelim : ∀ (arg acc : List Char),
    (∀ c ∈ arg, isDelim c = false) →
    tokenizeAux arg acc =
      if acc.reverse ++ arg = [] then [] else [acc.reverse ++ arg]
  | [], acc, _ => by
      simp only [tokenizeAux, List.append_nil]
      by_cases h : acc = [] <;> simp [h]
  | c :: arg', acc, h => by
      simp only [tokenizeAux]
      rw [if_neg (by simp [h c (by simp)])]
      rw [tokenizeAux_all_nondelim arg' (c :: acc) (fun d hd => h d (by simp [hd]))]
      simp

theorem tokenize_nondelim (arg : List Char) (h1 : arg ≠ [])
    (h2 : ∀ c ∈ arg, isDelim c = false) : tokenize arg = [arg] := by
  unfold tokenize
  rw [tokenizeAux_all_nondelim arg [] h2]
  simp [h1]

theorem tokenizeAux_cmd : ∀ (cmd arg acc : List Char),
    (∀ c ∈ cmd, isDelim c = false) → (cmd ≠ [] ∨ acc ≠ []) →
    tokenizeAux (cmd ++ ' ' :: arg) acc = (acc.reverse ++ cmd) :: tokenizeAux arg []
  | [], arg, acc, _, hne => by
      have hacc : acc ≠ [] := by
        rcases hne with h | h
        · exact absurd rfl h
        · exact h
      simp only [List.nil_append, tokenizeAux]
      rw [if_pos (by decide)]
      rw [if_neg hacc]
      simp
  | c :: cmd', arg, acc, h, _ => by
      simp only [List.cons_append, tokenizeAux]
      rw [if_neg (by simp [h c (by simp)])]
      simp only [List.append_eq]
      rw [tokenizeAux_cmd cmd' arg (c :: acc) (fun d hd => h d (by simp [hd]))
        (Or.inr (by simp))]
      simp

theorem tokenize_cmd_arg (cmd arg : List Char) (h1 : ∀ c ∈ cmd, isDelim c = false)
    (h2 : cmd ≠ []) : tokenize (cmd ++ ' ' :: arg) = cmd :: tokenizeAux arg [] := by
  unfold tokenize
  rw [tokenizeAux_cmd cmd arg [] h1 (Or.inl h2)]
  simp

theorem strtolNat_nondigit {c : Char} (cs : List Char) (acc : Nat)
    (h : isDigitC c = false) : strtolNat (c :: cs) acc = acc := by
  unfold strtolNat
  rw [if_neg (by simp [h])]

theorem strtol_eq_zero_of_noLeadingDigit (s : List Char)
    (h : noLeadingDigit s = true) : strtol s = 0 := by
  unfold noLeadingDigit at h
  unfold strtol
  split
  · rename_i rest heq
    rw [heq] at h
    simp only at h
    rw [if_pos (by decide)] at h
    cases rest with
    | nil => simp [strtolNat]
    | cons d r =>
        simp only [Bool.not_eq_true'] at h
        rw [strtolNat_nondigit r 0 h]
        simp
  · rename_i rest heq
    rw [heq] at h
    simp only at h
    rw [if_pos (by decide)] at h
    cases rest with
    | nil => simp [strtolNat]
    | cons d r =>
        simp only [Bool.not_eq_true'] at h
        rw [strtolNat_nondigit r 0 h]
        simp
  · rename_i hne1 hne2
    cases hx : s.dropWhile isSpaceC with
    | nil => simp [strtolNat]
    | cons c rest =>
        rw [hx] at h
        simp only at h
        have hc1 : c ≠ '-' := by
          intro hcc
          exact hne1 rest (by rw [hx, hcc])
        have hc2 : c ≠ '+' := by
          intro hcc
          exact hne2 rest (by rw [hx, hcc])
        rw [if_neg (by simp [hc1, hc2])] at h
        simp only [Bool.not_eq_true'] at h
        rw [strtolNat_nondigit rest 0 h]
        simp

theorem tokenize_two (cmd arg : List Char) (h1 : ∀ c ∈ cmd, isDelim c = false)
    (h2 : cmd ≠ []) (h3 : ∀ c ∈ arg, isDelim c = false) (h4 : arg ≠ []) :
    tokenize (cmd ++ ' ' :: arg) = [cmd, arg] := by
  rw [tokenize_cmd_arg cmd arg h1 h2]
  rw [tokenizeAux_all_nondelim arg [] h3]
  simp [h4]

theorem try_remove_eq (rf : Option (List Char)) (wo : Bool) (l : List Item)
    (arg : List Char) (hargne : arg ≠ []) (hargnd : ∀ c ∈ arg, isDelim c = false)
    (hlen : arg.length ≤ 1015) :
    try_handle_command rf wo l ("/remove".data ++ ' ' :: arg) =
      if strtol arg ≤ 0 then
        ⟨true, l, ["Specify a positive index"], none, false⟩
      else
        ⟨true, (remove_item l ((strtol arg).toNat - 1)).1,
          (remove_item l ((strtol arg).toNat - 1)).2, none, false⟩ := by
  have h7 : ("/remove".data : List Char).length = 7 := rfl
  simp only [try_handle_command]
  rw [if_neg (by
    rw [show ("/remove".data ++ ' ' :: arg).head? = some '/' from rfl]
    simp)]
  rw [List.take_of_length_le (by
    simp only [List.length_append, List.length_cons, h7]
    omega)]
  rw [tokenize_two "/remove".data arg (by decide) (by decide) hargnd hargne]
  simp only [List.head?_cons, List.getElem?_cons_succ, List.getElem?_cons_zero]
  simp

theorem try_load_eq (rf : Option (List Char)) (wo : Bool) (l : List Item)
    (arg : List Char) (hargne : arg ≠ []) (hargnd : ∀ c ∈ arg, isDelim c = false)
    (hlen : arg.length ≤ 1015) :
    try_handle_command rf wo l ("/load".data ++ ' ' :: arg) =
      ⟨true, (load_from_file l rf (String.mk arg)).1,
        (load_from_file l rf (String.mk arg)).2, none, false⟩ := by
  have h5 : ("/load".data : List Char).length = 5 := rfl
  simp only [try_handle_command]
  rw [if_neg (by
    rw [show ("/load".data ++ ' ' :: arg).head? = some '/' from rfl]
    simp)]
  rw [List.take_of_length_le (by
    simp only [List.length_append, List.length_cons, h5]
    omega)]
  rw [tokenize_two "/load".data arg (by decide) (by decide) hargnd hargne]
  simp only [List.head?_cons, List.getElem?_cons_succ, List.getElem?_cons_zero]
  simp

theorem try_save_eq (rf : Option (List Char)) (wo : Bool) (l : List Item)
    (arg : List Char) (hargne : arg ≠ []) (hargnd : ∀ c ∈ arg, isDelim c = false)
    (hlen : arg.length ≤ 1015) :
    try_handle_command rf wo l ("/save".data ++ ' ' :: arg) =
      ⟨true, l, (save_to_file l wo (String.mk arg)).2,
        (save_to_file l wo (String.mk arg)).1, false⟩ := by
  have h5 : ("/save".data : List Char).length = 5 := rfl
  simp only [try_handle_command]
  rw [if_neg (by
    rw [show ("/save".data ++ ' ' :: arg).head? = some '/' from rfl]
    simp)]
  rw [List.take_of_length_le (by
    simp only [List.length_append, List.length_cons, h5]
    omega)]
  rw [tokenize_two "/save".data arg (by decide) (by decide) hargnd hargne]
  simp only [List.head?_cons, List.getElem?_cons_succ, List.getElem?_cons_zero]
  simp

/-! ## Claim theorems -/

/-- C1: for every list and 0-based index `i`, if `i < count` then
`remove_item` deletes exactly the element at position `i` (earlier positions
unchanged, every later element shifted down one position, so relative order
is preserved), the count decreases by exactly 1, and nothing is reported;
if `i ≥ count` the list is completely unchanged and `Invalid index` is
reported. -/
theorem remove_item_spec (l : List Item) (i : Nat) :
    (i < l.length →
      (remove_item l i).1.length + 1 = l.length ∧
      (∀ j, j < i → (remove_item l i).1[j]? = l[j]?) ∧
      (∀ j, i ≤ j → (remove_item l i).1[j]? = l[j + 1]?) ∧
      (remove_item l i).2 = []) ∧
    (l.length ≤ i →
      (remove_item l i).1 = l ∧ (remove_item l i).2 = ["Invalid index"]) := by
  constructor
  · intro h
    have hni : ¬(l.length ≤ i) := by omega
    refine ⟨?_, ?_, ?_, ?_⟩
    · simp only [remove_item, if_neg hni]
      simp [List.length_append]
      omega
    · intro j hj
      simp only [remove_item, if_neg hni]
      rw [List.getElem?_append, if_pos (by simp; omega),
        List.getElem?_take_of_lt hj]
    · intro j hj
      simp only [remove_item, if_neg hni]
      rw [List.getElem?_append, if_neg (by simp; omega), List.getElem?_drop]
      congr 1
      simp
      omega
    · simp [remove_item, hni]
  · intro h
    simp [remove_item, h]

/-- Witness for C1: removing index 1 from a three-element list drops the
count from 3 to 2; removing index 5 leaves it unchanged and reports
`Invalid index`. -/
theorem remove_item_spec_witness :
    (1 < ([ "a".data, "b".data, "c".data ] : List Item).length ∧
      (remove_item ["a".data, "b".data, "c".data] 1).1.length + 1 =
        ([ "a".data, "b".data, "c".data ] : List Item).length) ∧
    (([ "a".data, "b".data, "c".data ] : List Item).length ≤ 5 ∧
      (remove_item ["a".data, "b".data, "c".data] 5).1 =
        ["a".data, "b".data, "c".data] ∧
      (remove_item ["a".data, "b".data, "c".data] 5).2 = ["Invalid index"]) := by
  refine ⟨⟨by decide, ?_⟩, by decide, ?_⟩
  · exact ((remove_item_spec ["a".data, "b".data, "c".data] 1).1 (by decide)).1
  · exact (remove_item_spec ["a".data, "b".data, "c".data] 5).2 (by decide)

/-- C2 (counterexample): the round trip is NOT exact for every list whose
items merely contain no raw newline.  The list `["a "]` (trailing space, no
newline anywhere) saves as `"a \n"`, and loading that file into a fresh
empty list yields `["a"]`: the trailing whitespace is `rtrim`med away by
`load_from_file`, so the original sequence is not reproduced. -/
theorem save_load_not_exact :
    ('\n' ∉ "a ".data) ∧
    load_lines [] (fgets_split (save_lines ["a ".data])) ≠ ["a ".data] := by
  decide

/-- C2 (amended): saving and then loading into a fresh empty list reproduces
the original sequence exactly provided every item is nonempty, has no
trailing whitespace (`rtrim`-fixed), contains no raw newline, and is at most
1023 bytes long — exactly the shape of every item the program can store;
loading the saved file into a non-empty list appends, yielding
original-count + file-line-count items with no deduplication. -/
theorem save_load_round_trip (l m : List Item) (h : ∀ it ∈ l, storable it) :
    load_lines [] (fgets_split (save_lines l)) = l ∧
    load_lines m (fgets_split (save_lines l)) = m ++ l ∧
    (load_lines m (fgets_split (save_lines l))).length = m.length + l.length := by
  have h2 := load_save_aux l m h
  have h1 := load_save_aux l [] h
  simp only [List.nil_append] at h1
  refine ⟨h1, h2, ?_⟩
  rw [h2]
  simp

/-- Witness for C2 (amended): the list `[apples, bread]` round-trips
exactly, and loading its saved file into `[milk]` appends. -/
theorem save_load_round_trip_witness :
    (∀ it ∈ [("apples".data : Item), "bread".data], storable it) ∧
    load_lines ["milk".data] (fgets_split (save_lines ["apples".data, "bread".data])) =
      ["milk".data, "apples".data, "bread".data] := by
  refine ⟨by decide, ?_⟩
  have h := save_load_round_trip ["apples".data, "bread".data] ["milk".data]
    (by decide)
  simpa using h.2.1

/-- C3: empty or whitespace-only input is never added — feeding `""`,
`"   "`, or `"\r\n"` through the add path leaves the list unchanged — and
"every stored item is nonempty" is an invariant preserved by the add path,
`remove_item`, the `/clear` loop, and the `load_from_file` read loop. -/
theorem nonempty_item_invariant (l : List Item) (s : List Char) (i : Nat)
    (chunks : List (List Char)) (hinv : ∀ it ∈ l, it ≠ []) :
    add_input l "".data = l ∧
    add_input l "   ".data = l ∧
    add_input l "\r\n".data = l ∧
    (∀ it ∈ add_input l s, it ≠ []) ∧
    (∀ it ∈ (remove_item l i).1, it ≠ []) ∧
    (∀ it ∈ clear_loop l, it ≠ []) ∧
    (∀ it ∈ load_lines l chunks, it ≠ []) := by
  refine ⟨rfl, ?_, ?_, add_item_inv hinv _, remove_item_inv hinv i, ?_,
    load_lines_inv chunks l hinv⟩
  · have h : rtrim "   ".data = [] := by decide
    simp [add_input, h, add_item]
  · have h : rtrim "\r\n".data = [] := by decide
    simp [add_input, h, add_item]
  · rw [clear_loop_eq_nil]
    simp

/-- Witness for C3: a concrete nonempty list stays nonempty-itemed after an
add, and whitespace-only input really is dropped. -/
theorem nonempty_item_invariant_witness :
    (∀ it ∈ [("milk".data : Item)], it ≠ []) ∧
    add_input ["milk".data] "   ".data = ["milk".data] ∧
    (∀ it ∈ add_input ["milk".data] "tea".data, it ≠ []) := by
  have h := nonempty_item_invariant ["milk".data] "tea".data 0 [] (by decide)
  exact ⟨by decide, h.2.1, h.2.2.2.1⟩

/-- C4 (counterexample): on the input line `/`, `strtok` returns the token
`"/"` itself (`'/'` is not one of the delimiters ` `/`\t`), so the
interpreter does NOT take the silent no-token branch: it prints the
unknown-command message.  The claim's "no error message is produced" is
false. -/
theorem slash_only_produces_message :
    (try_handle_command none true [] ['/']).handled = true ∧
    (try_handle_command none true [] ['/']).list = [] ∧
    (try_handle_command none true [] ['/']).msgs ≠ [] := by
  decide

/-- C4 (amended): the line `/` is treated as handled, no item is added and
the list is unchanged, but the dispatcher prints the unknown-command
message; the no-token branch (line 139) is unreachable for lines starting
with `/`. -/
theorem slash_only_unknown_command (rf : Option (List Char)) (wo : Bool)
    (l : List Item) :
    try_handle_command rf wo l ['/'] =
      ⟨true, l, ["Unknown command. Type /help for commands."], none, false⟩ := rfl

/-- C5: the `/remove` index comes from the permissive leading-integer parse
`strtol`: an argument with no leading digits (after optional whitespace and
sign) parses as 0, `"12abc"` parses as 12; whenever the parsed value is ≤ 0
the program prints `Specify a positive index` and the list is unchanged,
otherwise `remove_item` is invoked on parsed-value − 1. -/
theorem remove_parse_spec (rf : Option (List Char)) (wo : Bool) (l : List Item)
    (arg : List Char) (h1 : arg ≠ []) (h2 : ∀ c ∈ arg, isDelim c = false)
    (h3 : arg.length ≤ 1015) :
    (noLeadingDigit arg = true → strtol arg = 0) ∧
    (strtol arg ≤ 0 →
      try_handle_command rf wo l ("/remove".data ++ ' ' :: arg) =
        ⟨true, l, ["Specify a positive index"], none, false⟩) ∧
    (0 < strtol arg →
      try_handle_command rf wo l ("/remove".data ++ ' ' :: arg) =
        ⟨true, (remove_item l ((strtol arg).toNat - 1)).1,
          (remove_item l ((strtol arg).toNat - 1)).2, none, false⟩) ∧
    strtol "12abc".data = 12 ∧ strtol "abc".data = 0 ∧ strtol "-3".data = -3 := by
  refine ⟨strtol_eq_zero_of_noLeadingDigit arg, ?_, ?_, by decide, by decide,
    by decide⟩
  · intro hle
    rw [try_remove_eq rf wo l arg h1 h2 h3, if_pos hle]
  · intro hpos
    rw [try_remove_eq rf wo l arg h1 h2 h3, if_neg (by omega)]

/-- Witness for C5: `/remove 0` prints `Specify a positive index` and leaves
the list unchanged, and `/remove 1` on `[bread]` removes the item. -/
theorem remove_parse_spec_witness :
    (("0".data : List Char) ≠ [] ∧ (∀ c ∈ ("0".data : List Char), isDelim c = false) ∧
      ("0".data : List Char).length ≤ 1015 ∧ strtol "0".data ≤ 0) ∧
    try_handle_command none true ["bread".data] ("/remove".data ++ ' ' :: "0".data) =
      ⟨true, ["bread".data], ["Specify a positive index"], none, false⟩ ∧
    try_handle_command none true ["bread".data] ("/remove".data ++ ' ' :: "1".data) =
      ⟨true, [], [], none, false⟩ := by
  refine ⟨by decide, ?_, ?_⟩
  · exact (remove_parse_spec none true ["bread".data] "0".data (by decide)
      (by decide) (by decide)).2.1 (by decide)
  · have h := (remove_parse_spec none true ["bread".data] "1".data (by decide)
      (by decide) (by decide)).2.2.1 (by decide)
    rw [h]
    decide

/-- C7: `save_to_file` writes each item as its own line terminated by a
single newline, in current list order, with no header or other metadata:
the written bytes are exactly the concatenation of item + `\n`, and saving
`[apples, bread]` produces exactly `"apples\nbread\n"`. -/
theorem save_format (l : List Item) :
    save_lines ["apples".data, "bread".data] = "apples\nbread\n".data ∧
    save_lines l = (l.map (fun it => it ++ ['\n'])).flatten ∧
    (save_to_file l true "out.txt").1 = some (save_lines l) := by
  refine ⟨by decide, ?_, by simp [save_to_file]⟩
  induction l with
  | nil => rfl
  | cons it rest ih => simp [save_lines, ih]

/-- C6: a line is treated as a command (return value 1) if and only if its
first character is `/`; consequently, in the confirmation sub-loop, a
`/`-line always takes the handled path and the "not handled" reminder
branch is unreachable. -/
theorem command_iff_slash (rf : Option (List Char)) (wo : Bool) (l : List Item)
    (input line : List Char) (rest : List (List Char)) :
    ((try_handle_command rf wo l input).handled = true ↔
      input.head? = some '/') ∧
    ((rtrim line).head? = some '/' →
      interact rf wo l .awaitingConfirmation (line :: rest) =
        (let r := try_handle_command rf wo l (rtrim line)
         if r.quit then (r.list, false)
         else interact rf wo r.list .awaitingConfirmation rest)) := by
  have hiff : ∀ s : List Char,
      (try_handle_command rf wo l s).handled = true ↔ s.head? = some '/' := by
    intro s
    by_cases h : s.head? = some '/'
    · simp only [try_handle_command]
      rw [if_neg (by simp [h])]
      rw [iff_true_intro h, iff_true]
      split
      · rfl
      · split_ifs <;> (try rfl) <;> split <;> (try split_ifs) <;> rfl
    · simp only [try_handle_command]
      rw [if_pos h]
      simp [h]
  refine ⟨hiff input, ?_⟩
  intro hslash
  have hne : rtrim line ≠ [] := by
    intro h0
    rw [h0] at hslash
    simp at hslash
  simp only [interact]
  rw [if_neg hne]
  rw [if_neg (by
    rintro (h2 | h2) <;> exact absurd (h2.symm.trans hslash) (by decide))]
  rw [if_neg (by
    rintro (h2 | h2) <;> exact absurd (h2.symm.trans hslash) (by decide))]
  rw [if_pos hslash]
  rw [if_pos ((hiff (rtrim line)).mpr hslash)]

/-- Witness for C6: the command line `/view` entered in the confirmation
sub-loop takes the handled (command-dispatch) path. -/
theorem command_iff_slash_witness :
    ((rtrim "/view".data).head? = some '/') ∧
    interact none true [] .awaitingConfirmation ("/view".data :: []) =
      (let r := try_handle_command none true [] (rtrim "/view".data)
       if r.quit then (r.list, false)
       else interact none true r.list .awaitingConfirmation []) := by
  refine ⟨by decide, ?_⟩
  exact (command_iff_slash none true [] [] "/view".data []).2 (by decide)

/-- C8: when opening the file fails, both save (`writeOk = false`) and load
(`readFile = none`) report the failure, write nothing, and leave the
in-memory list completely unchanged; the failure is non-fatal (`quit` is
not set) and the interaction loop simply continues with the next line. -/
theorem open_failure_spec (rf : Option (List Char)) (wo : Bool) (l : List Item)
    (arg : List Char) (rest : List (List Char))
    (h1 : arg ≠ []) (h2 : ∀ c ∈ arg, isDelim c = false)
    (h3 : arg.length ≤ 1015) (h4 : rtrim arg = arg) :
    try_handle_command none wo l ("/load".data ++ ' ' :: arg) =
      ⟨true, l, ["Failed to open file"], none, false⟩ ∧
    try_handle_command rf false l ("/save".data ++ ' ' :: arg) =
      ⟨true, l, ["Failed to open file"], none, false⟩ ∧
    interact none wo l .awaitingItem (("/load".data ++ ' ' :: arg) :: rest) =
      interact none wo l .awaitingItem rest := by
  have hloadr : try_handle_command none wo l ("/load".data ++ ' ' :: arg) =
      ⟨true, l, ["Failed to open file"], none, false⟩ := by
    rw [try_load_eq none wo l arg h1 h2 h3]
    simp [load_from_file]
  refine ⟨hloadr, ?_, ?_⟩
  · rw [try_save_eq rf false l arg h1 h2 h3]
    simp [save_to_file]
  · have hlineq : rtrim ("/load".data ++ ' ' :: arg) =
        "/load".data ++ ' ' :: arg := by
      have h5 : "/load".data ++ ' ' :: arg = ("/load".data ++ [' ']) ++ arg := by
        simp
      rw [h5]
      exact rtrim_append_eq_self h1 h4
    simp only [interact]
    rw [hlineq]
    rw [if_neg (by simp)]
    rw [hloadr]
    simp

/-- Witness for C8: `/load f` with the open failing reports the error and
leaves the one-item list unchanged. -/
theorem open_failure_spec_witness :
    (("f".data : List Char) ≠ [] ∧ rtrim "f".data = "f".data) ∧
    try_handle_command none true ["a".data] ("/load".data ++ ' ' :: "f".data) =
      ⟨true, ["a".data], ["Failed to open file"], none, false⟩ := by
  refine ⟨by decide, ?_⟩
  exact (open_failure_spec none true ["a".data] "f".data [] (by decide)
    (by decide) (by decide) (by decide)).1

/-- C9: in the confirmation sub-loop a line whose first character (after
`rtrim`) is `y`/`Y` returns to prompting for the next item, and a line whose
first character is `n`/`N` finalizes with the current list and success; the
session add "milk", confirm "y", add "eggs", confirm "n" ends normally with
the final list printed as `1. milk`, `2. eggs`. -/
theorem confirm_loop_spec (rf : Option (List Char)) (wo : Bool) (l : List Item)
    (line : List Char) (rest : List (List Char)) :
    ((rtrim line).head? = some 'y' ∨ (rtrim line).head? = some 'Y' →
      interact rf wo l .awaitingConfirmation (line :: rest) =
        interact rf wo l .awaitingItem rest) ∧
    ((rtrim line).head? = some 'n' ∨ (rtrim line).head? = some 'N' →
      interact rf wo l .awaitingConfirmation (line :: rest) = (l, true)) ∧
    main_run none true "milk\ny\neggs\nn\n".data =
      (["milk".data, "eggs".data], true) ∧
    print_list ["milk".data, "eggs".data] =
      ["Your shopping list:", "1. milk", "2. eggs"] := by
  refine ⟨?_, ?_, by decide, by decide⟩
  · intro hy
    have hne : rtrim line ≠ [] := by
      rcases hy with h | h <;> (intro h0; rw [h0] at h; simp at h)
    simp only [interact]
    rw [if_neg hne, if_pos hy]
  · intro hn
    have hne : rtrim line ≠ [] := by
      rcases hn with h | h <;> (intro h0; rw [h0] at h; simp at h)
    have hny : ¬((rtrim line).head? = some 'y' ∨
        (rtrim line).head? = some 'Y') := by
      rcases hn with h | h <;>
        (rintro (h2 | h2) <;> exact absurd (h2.symm.trans h) (by decide))
    simp only [interact]
    rw [if_neg hne, if_neg hny, if_pos hn]

/-- Witness for C9: answering `y` at the confirmation prompt goes back to
asking for the next item. -/
theorem confirm_loop_spec_witness :
    ((rtrim "y".data).head? = some 'y' ∨ (rtrim "y".data).head? = some 'Y') ∧
    interact none true ["milk".data] .awaitingConfirmation ("y".data :: []) =
      interact none true ["milk".data] .awaitingItem [] := by
  refine ⟨by decide, ?_⟩
  exact (confirm_loop_spec none true ["milk".data] "y".data []).1 (by decide)

/-- C10: every `fgets` chunk is at most 1023 bytes, the chunks concatenate
back to the whole stream (nothing is lost or duplicated), and each chunk is
processed as its own line: loading a file that is a single line of more
than 1023 non-whitespace bytes (up to 2046, so that it splits in two)
produces two items — the first 1023 bytes and the remainder — rather than
one. -/
theorem buffer_chunking (content : List Char) :
    (∀ chunk ∈ fgets_split content, chunk.length ≤ 1023) ∧
    (fgets_split content).flatten = content ∧
    ((∀ c ∈ content, rtrimDrop c = false) → 1023 < content.length →
      content.length ≤ 2046 →
      load_lines [] (fgets_split content) =
        [content.take 1023, content.drop 1023]) := by
  refine ⟨fgets_split_chunk_le content, fgets_split_flatten content, ?_⟩
  intro hnd hgt hle
  have hnl : '\n' ∉ content := by
    intro hmem
    exact absurd (hnd '\n' hmem) (by decide)
  have htake1 : fgets_take 1023 content = content.take 1023 := by
    apply fgets_take_eq_take
    intro hmem
    exact hnl ((List.take_sublist _ _).subset hmem)
  have hcne : content ≠ [] := by
    intro h0
    rw [h0] at hgt
    simp at hgt
  rw [fgets_split_ne_nil content hcne, htake1]
  have hlt : (content.take 1023).length = 1023 := by
    simp
    omega
  rw [hlt]
  have hdne : content.drop 1023 ≠ [] := by
    intro h0
    have hl0 := congrArg List.length h0
    simp at hl0
    omega
  have htake2 : fgets_take 1023 (content.drop 1023) = content.drop 1023 := by
    rw [fgets_take_eq_take]
    · rw [List.take_of_length_le (by simp; omega)]
    · rw [List.take_of_length_le (by simp; omega)]
      intro hmem
      exact hnl ((List.drop_sublist _ _).subset hmem)
  have hAne : content.take 1023 ≠ [] := by
    intro h0
    have hl0 := congrArg List.length h0
    rw [hlt] at hl0
    simp at hl0
  rw [fgets_split_ne_nil _ hdne, htake2, List.drop_length]
  have hnil : fgets_split ([] : List Char) = [] := rfl
  rw [hnil]
  simp only [load_lines]
  rw [rtrim_eq_self (fun c hc => hnd c ((List.take_sublist _ _).subset hc))]
  rw [rtrim_eq_self (fun c hc => hnd c ((List.drop_sublist _ _).subset hc))]
  simp [add_item, hAne, hdne]

/-- Witness for C10: a single 1500-byte line of `a`s loads as two items of
1023 and 477 bytes. -/
theorem buffer_chunking_witness :
    (∀ c ∈ List.replicate 1500 'a', rtrimDrop c = false) ∧
    load_lines [] (fgets_split (List.replicate 1500 'a')) =
      [(List.replicate 1500 'a').take 1023, (List.replicate 1500 'a').drop 1023] := by
  have h : ∀ c ∈ List.replicate 1500 'a', rtrimDrop c = false := by
    intro c hc
    rw [List.eq_of_mem_replicate hc]
    decide
  refine ⟨h, ?_⟩
  exact (buffer_chunking (List.replicate 1500 'a')).2.2 h
    (by rw [List.length_replicate]; omega) (by rw [List.length_replicate]; omega)

end Usagi
